import Mathlib

/-!
Verification of the word-game engine in `src/src/lib.rs`.

The embedding models five-letter words as `List Char`.  The scoring
function `Correctness::compute` is embedded as `compute` (its loop body)
and `computeChecked` (the loop body guarded by the two length assertions).
The game loop `Wordle::play` is embedded as `playGo` / `playH` / `play`,
with the dictionary abstracted to a boolean membership test and the
strategy (`trait Guesser`, `fn guess(&mut self, history)`) modelled as a
state-passing function `σ → History → List Char × σ`.
-/

/-- The three per-letter outcomes (`enum Correctness` in the source):
green, yellow, grey. -/
inductive Correctness where
  | Correct
  | Misplaced
  | Wrong
  deriving DecidableEq, Repr

/-- The inner loop of `Correctness::compute`: scanning the zipped
answer/guess pairs together with the `used` flags from position `j`
upward, return the first index whose answer letter equals the guess
letter `gc`, is not an exact match at its own position, and is unused
(`g == a_ && a_ != g_ && !used[j]` in the source). -/
def innerScan (gc : Char) : List ((Char × Char) × Bool) → Nat → Option Nat
  | [], _ => none
  | ((a, g), u) :: rest, j =>
    if gc = a ∧ a ≠ g ∧ u = false then some j else innerScan gc rest (j + 1)

/-- The outer loop of `Correctness::compute`.  `ag` is the full zipped
answer/guess list, `rest` the pairs still to be processed (positions
`i, i+1, ...`), and `used` the consumed flags.  Each iteration decides
the outcome of position `i` exactly once, in ascending order, just as the
source writes `c[i]` exactly once per iteration: `Correct` for an exact
match (also marking `used[i]`), otherwise `Misplaced` if the inner scan
finds an unused cross match `j` (marking `used[j]`), otherwise `Wrong`. -/
def computeGo (ag : List (Char × Char)) :
    List (Char × Char) → Nat → List Bool → List Correctness × List Bool
  | [], _, used => ([], used)
  | (a, g) :: rest, i, used =>
    if a = g then
      let r := computeGo ag rest (i + 1) (used.set i true)
      (Correctness.Correct :: r.1, r.2)
    else
      match innerScan g (ag.zip used) 0 with
      | some j =>
        let r := computeGo ag rest (i + 1) (used.set j true)
        (Correctness.Misplaced :: r.1, r.2)
      | none =>
        let r := computeGo ag rest (i + 1) used
        (Correctness.Wrong :: r.1, r.2)

/-- The body of `Correctness::compute` (after its two length
assertions): zip answer and guess, start with all `used` flags false,
and run the single interleaved pass. -/
def compute (answer guess : List Char) : List Correctness :=
  let ag := answer.zip guess
  (computeGo ag ag 0 (List.replicate ag.length false)).1

/-- The abort conditions of the program: the two length assertions of
`Correctness::compute`, and the dictionary-membership assertion of
`Wordle::play`. -/
inductive PlayError where
  | lengthMismatch
  | notInDictionary
  deriving DecidableEq, Repr

/-- `Correctness::compute` including its `assert_eq!(answer.len(), 5)`
and `assert_eq!(guess.len(), 5)` guards: an assertion failure aborts,
modelled as `Except.error`. -/
def computeChecked (answer guess : List Char) : Except PlayError (List Correctness) :=
  if answer.length = 5 then
    if guess.length = 5 then Except.ok (compute answer guess)
    else Except.error PlayError.lengthMismatch
  else Except.error PlayError.lengthMismatch

/-- Pass 2 of the spec's two-pass reference algorithm.  `used` already
has every exact-match position consumed (pass 1).  For each position in
order: an exact match keeps its pass-1 outcome `Correct` and changes
nothing; otherwise the answer positions are scanned in ascending order
for an unconsumed, non-exact-match occurrence of the guess letter, which
yields `Misplaced` and is consumed, and `Wrong` results if none exists. -/
def specGo (ag : List (Char × Char)) :
    List (Char × Char) → List Bool → List Correctness × List Bool
  | [], used => ([], used)
  | (a, g) :: rest, used =>
    if a = g then
      let r := specGo ag rest used
      (Correctness.Correct :: r.1, r.2)
    else
      match innerScan g (ag.zip used) 0 with
      | some j =>
        let r := specGo ag rest (used.set j true)
        (Correctness.Misplaced :: r.1, r.2)
      | none =>
        let r := specGo ag rest used
        (Correctness.Wrong :: r.1, r.2)

/-- The spec's two-pass reference scoring algorithm, written from the
spec's words: pass 1 marks every exact position `Correct` and consumed
(here: the initial consumed flags are exactly the exact-match positions,
and `specGo` emits `Correct` at those positions), then pass 2 resolves
`Misplaced`/`Wrong` for the remaining positions. -/
def specCompute (answer guess : List Char) : List Correctness :=
  let ag := answer.zip guess
  (specGo ag ag (ag.map fun p => decide (p.1 = p.2))).1

/-- A history entry (`struct Guess` in the source): the guessed word and
its feedback mask. -/
structure GuessRecord where
  word : List Char
  mask : List Correctness
  deriving DecidableEq, Repr

/-- The guess history accumulated by `Wordle::play`. -/
abbrev History := List GuessRecord

/-- `MAX_GUESSES` from the source. -/
def MAX_GUESSES : Nat := 32

/-- The loop of `Wordle::play` (`for i in 1..=MAX_GUESSES`), with the
final history exposed alongside the result.  `rounds` counts the
iterations left, `i` is the current round number.  Each iteration asks
the guesser, returns `some i` on an exact match, asserts dictionary
membership, scores the guess (the scoring assertions abort on a length
mismatch), and appends the record.  When the rounds run out the result
is `none` (not solved). -/
def playGo {σ : Type} (dict : List Char → Bool) (answer : List Char)
    (guesser : σ → History → List Char × σ) :
    Nat → Nat → σ → History → Except PlayError (Option Nat × History)
  | 0, _, _, history => Except.ok (none, history)
  | rounds + 1, i, st, history =>
    let g := guesser st history
    if g.1 = answer then Except.ok (some i, history)
    else if dict g.1 = true then
      match computeChecked answer g.1 with
      | Except.ok mask =>
        playGo dict answer guesser rounds (i + 1) g.2 (history ++ [⟨g.1, mask⟩])
      | Except.error e => Except.error e
    else Except.error PlayError.notInDictionary

/-- `Wordle::play` with the final value of its local `history` exposed:
starts at round 1 with an empty history and `MAX_GUESSES` rounds left. -/
def playH {σ : Type} (dict : List Char → Bool) (answer : List Char)
    (guesser : σ → History → List Char × σ) (init : σ) :
    Except PlayError (Option Nat × History) :=
  playGo dict answer guesser MAX_GUESSES 1 init []

/-- `Wordle::play`: what the source function actually returns
(`Option<usize>`, or an assertion abort). -/
def play {σ : Type} (dict : List Char → Bool) (answer : List Char)
    (guesser : σ → History → List Char × σ) (init : σ) :
    Except PlayError (Option Nat) :=
  (playH dict answer guesser init).map Prod.fst

/-- One non-winning round as `play` performs it: ask the guesser, score
the guess, append the record. -/
def stepRound {σ : Type} (answer : List Char)
    (guesser : σ → History → List Char × σ) (p : σ × History) : σ × History :=
  let g := guesser p.1 p.2
  (g.2, p.2 ++ [⟨g.1, compute answer g.1⟩])

/-- Guesser state and history at the start of round `n + 1`, assuming
the first `n` rounds were all non-winning and passed their checks. -/
def stateAt {σ : Type} (answer : List Char)
    (guesser : σ → History → List Char × σ) (init : σ) : Nat → σ × History
  | 0 => (init, [])
  | n + 1 => stepRound answer guesser (stateAt answer guesser init n)

/-- The guess produced in round `n + 1` (under the same assumption). -/
def guessAt {σ : Type} (answer : List Char)
    (guesser : σ → History → List Char × σ) (init : σ) (n : Nat) : List Char :=
  (guesser (stateAt answer guesser init n).1 (stateAt answer guesser init n).2).1

/-- Two sets of consumed flags agree at every position whose answer
letter is not an exact match.  Only such positions can influence the
inner scan, whose condition requires `answer[j] != guess[j]`. -/
abbrev UsedAgree (ag : List (Char × Char)) (u1 u2 : List Bool) : Prop :=
  ∀ (k : Nat) (p : Char × Char), ag[k]? = some p → p.1 ≠ p.2 → u1[k]? = u2[k]?

/-- The number of mask positions credited Correct or Misplaced whose
guess letter is `L`. -/
def creditCount (guess : List Char) (mask : List Correctness) (L : Char) : Nat :=
  (guess.zip mask).countP fun x => decide (x.1 = L ∧ x.2 ≠ Correctness.Wrong)

/-- The same credit count, read off the zipped answer/guess pairs. -/
def creditsAg (rest : List (Char × Char)) (mask : List Correctness) (L : Char) : Nat :=
  (rest.zip mask).countP fun x => decide (x.1.2 = L ∧ x.2 ≠ Correctness.Wrong)

/-- The number of exact-match pairs with letter `L`. -/
def exactCount (rest : List (Char × Char)) (L : Char) : Nat :=
  rest.countP fun p => decide (p.1 = p.2 ∧ p.1 = L)

/-- The number of unconsumed answer positions holding letter `L`. -/
def unusedCount (ag : List (Char × Char)) (used : List Bool) (L : Char) : Nat :=
  (ag.zip used).countP fun x => decide (x.1.1 = L ∧ x.2 = false)

/-! ### Concrete game instances used by the witnesses -/

/-- A concrete five-letter answer. -/
def cAnswer : List Char := ['a', 'b', 'c', 'd', 'e']

/-- A concrete five-letter non-answer word. -/
def cOther : List Char := ['f', 'g', 'h', 'i', 'j']

/-- A dictionary holding exactly the non-answer word. -/
def cDict : List Char → Bool := fun w => decide (w = cOther)

/-- A dictionary holding the non-answer word and the answer, so that
the answer itself belongs to the Valid-Word Set. -/
def cDictBoth : List Char → Bool := fun w => decide (w = cOther ∨ w = cAnswer)

/-- A strategy that always guesses the non-answer word. -/
def cGuesserConst : Unit → History → List Char × Unit := fun _ _ => (cOther, ())

/-- A strategy that always guesses the answer. -/
def cGuesserWin : Unit → History → List Char × Unit := fun _ _ => (cAnswer, ())

/-- A strategy that guesses the non-answer word in round 1 and the
answer afterwards. -/
def cGuesserRound2 : Unit → History → List Char × Unit :=
  fun _ h => (if h.length = 0 then cOther else cAnswer, ())

/-- The final history of the exhausted concrete game. -/
def finalHistory : History :=
  match playH cDict cAnswer cGuesserConst () with
  | Except.ok r => r.2
  | Except.error _ => []

/-! ### Equivalence of the interleaved pass with the two-pass reference -/

/-- Reading a zipped list at an index determines both components. -/
theorem zip_getElem?_eq {α β : Type} :
    ∀ (l : List α) (l' : List β) (k : Nat) (x : α × β),
      (l.zip l')[k]? = some x → l[k]? = some x.1 ∧ l'[k]? = some x.2
  | [], _, k, x, h => by simp at h
  | _ :: _, [], k, x, h => by simp at h
  | a :: t, b :: t', 0, x, h => by
    simp only [List.zip_cons_cons, List.getElem?_cons_zero, Option.some.injEq] at h
    subst h; simp
  | a :: t, b :: t', k + 1, x, h => by
    simp only [List.zip_cons_cons, List.getElem?_cons_succ] at h ⊢
    exact zip_getElem?_eq t t' k x h

theorem usedAgree_tail {ag : List (Char × Char)} {p0 : Char × Char}
    {b1 b2 : Bool} {t1 t2 : List Bool}
    (h : UsedAgree (p0 :: ag) (b1 :: t1) (b2 :: t2)) : UsedAgree ag t1 t2 := by
  intro k p hk hne
  have := h (k + 1) p (by simpa using hk) hne
  simpa using this

theorem usedAgree_head {ag : List (Char × Char)} {a g : Char}
    {b1 b2 : Bool} {t1 t2 : List Bool}
    (h : UsedAgree ((a, g) :: ag) (b1 :: t1) (b2 :: t2)) (hne : a ≠ g) :
    b1 = b2 := by
  have := h 0 (a, g) (by simp) hne
  simpa using this

/-- The inner scan gives the same result on any two consumed-flag lists
that agree at the non-exact-match positions. -/
theorem innerScan_congr (gc : Char) :
    ∀ (ag : List (Char × Char)) (u1 u2 : List Bool) (j : Nat),
      u1.length = u2.length → UsedAgree ag u1 u2 →
      innerScan gc (ag.zip u1) j = innerScan gc (ag.zip u2) j
  | [], u1, u2, j, _, _ => by simp [innerScan]
  | _ :: _, [], [], j, _, _ => by simp [innerScan]
  | _ :: _, [], _ :: _, j, hlen, _ => by simp at hlen
  | _ :: _, _ :: _, [], j, hlen, _ => by simp at hlen
  | (a, g) :: ag, b1 :: t1, b2 :: t2, j, hlen, hag => by
    have htl : t1.length = t2.length := by simpa using hlen
    have hrec := innerScan_congr gc ag t1 t2 (j + 1) htl (usedAgree_tail hag)
    by_cases hexact : a = g
    · simp only [List.zip_cons_cons, innerScan]
      rw [if_neg (by simp [hexact]), if_neg (by simp [hexact])]
      exact hrec
    · have hb : b1 = b2 := usedAgree_head hag hexact
      subst hb
      simp only [List.zip_cons_cons, innerScan]
      split
      · rfl
      · exact hrec

/-- Core refinement lemma: from any position `i` onward, the
interleaved pass (`computeGo`, which marks exact positions consumed
only as it reaches them) and the spec's pass 2 (`specGo`, where all
exact positions were consumed up front) produce the same outcomes, as
long as the consumed flags agree at the non-exact-match positions. -/
theorem go_equiv (ag : List (Char × Char)) (rest : List (Char × Char)) :
    ∀ (i : Nat) (u1 u2 : List Bool),
      List.drop i ag = rest →
      u1.length = ag.length → u2.length = ag.length →
      UsedAgree ag u1 u2 →
      (computeGo ag rest i u1).1 = (specGo ag rest u2).1 := by
  induction rest with
  | nil => intro i u1 u2 _ _ _ _; rfl
  | cons hd tl ih =>
    obtain ⟨a, g⟩ := hd
    intro i u1 u2 hdrop h1 h2 hag
    have hi : ag[i]? = some (a, g) := by
      have h0 := List.getElem?_drop ag i 0
      rw [hdrop] at h0
      simpa using h0.symm
    have hdrop' : List.drop (i + 1) ag = tl := by
      rw [← List.tail_drop, hdrop]; rfl
    have hsc : innerScan g (ag.zip u1) 0 = innerScan g (ag.zip u2) 0 :=
      innerScan_congr g ag u1 u2 0 (h1.trans h2.symm) hag
    simp only [computeGo, specGo]
    by_cases hexact : a = g
    · have hag' : UsedAgree ag (u1.set i true) u2 := by
        intro k p hk hne
        rcases eq_or_ne i k with rfl | hik
        · rw [hi] at hk
          cases hk
          exact absurd hexact hne
        · rw [List.getElem?_set, if_neg hik]
          exact hag k p hk hne
      rw [if_pos hexact, if_pos hexact]
      show Correctness.Correct :: (computeGo ag tl (i + 1) (u1.set i true)).1 =
        Correctness.Correct :: (specGo ag tl u2).1
      exact congrArg _ (ih (i + 1) (u1.set i true) u2 hdrop' (by simp [h1]) h2 hag')
    · rw [if_neg hexact, if_neg hexact, hsc]
      cases hscan : innerScan g (ag.zip u2) 0 with
      | none =>
        show Correctness.Wrong :: (computeGo ag tl (i + 1) u1).1 =
          Correctness.Wrong :: (specGo ag tl u2).1
        exact congrArg _ (ih (i + 1) u1 u2 hdrop' h1 h2 hag)
      | some j =>
        have hag' : UsedAgree ag (u1.set j true) (u2.set j true) := by
          intro k p hk hne
          rw [List.getElem?_set, List.getElem?_set, h1, h2]
          rcases eq_or_ne j k with rfl | hjk
          · simp
          · rw [if_neg hjk, if_neg hjk]
            exact hag k p hk hne
        show Correctness.Misplaced :: (computeGo ag tl (i + 1) (u1.set j true)).1 =
          Correctness.Misplaced :: (specGo ag tl (u2.set j true)).1
        exact congrArg _
          (ih (i + 1) (u1.set j true) (u2.set j true) hdrop' (by simp [h1])
            (by simp [h2]) hag')

/-- The single interleaved pass of the source agrees with the two-pass
reference on all inputs, of any length. -/
theorem compute_eq_specCompute (answer guess : List Char) :
    compute answer guess = specCompute answer guess := by
  show (computeGo (answer.zip guess) (answer.zip guess) 0
      (List.replicate (answer.zip guess).length false)).1 =
    (specGo (answer.zip guess) (answer.zip guess)
      ((answer.zip guess).map fun p => decide (p.1 = p.2))).1
  apply go_equiv _ _ 0 _ _ rfl (by simp) (by simp)
  intro k p hk hne
  have hk' : k < (answer.zip guess).length := by
    by_contra hcon
    push_neg at hcon
    rw [List.getElem?_eq_none hcon] at hk
    exact Option.noConfusion hk
  rw [List.getElem?_replicate, if_pos hk', List.getElem?_map, hk]
  simp [hne]

/-- C1: For every pair of 5-letter words (answer, guess), the mask
returned by `Correctness::compute` equals the mask produced by the
spec's two-pass reference algorithm (pass 1 marks all exact positions
Correct and consumed; pass 2 scans answer positions left-to-right for
each non-Correct guess position, crediting Misplaced only from
unconsumed, non-exact-match answer positions), even though the code
performs a single interleaved pass in which later exact matches are not
yet marked consumed when earlier positions scan for Misplaced. -/
theorem compute_eq_two_pass_spec (answer guess : List Char)
    (ha : answer.length = 5) (hg : guess.length = 5) :
    compute answer guess = specCompute answer guess :=
  compute_eq_specCompute answer guess

/-- Witness for C1 at the concrete pair A="aabbb", G="caacc". -/
theorem compute_eq_two_pass_spec_witness :
    (['a', 'a', 'b', 'b', 'b'] : List Char).length = 5 ∧
    (['c', 'a', 'a', 'c', 'c'] : List Char).length = 5 ∧
    compute ['a', 'a', 'b', 'b', 'b'] ['c', 'a', 'a', 'c', 'c'] =
      specCompute ['a', 'a', 'b', 'b', 'b'] ['c', 'a', 'a', 'c', 'c'] :=
  ⟨rfl, rfl, compute_eq_two_pass_spec _ _ rfl rfl⟩

/-! ### Positional characterization of the mask -/

/-- The converse: reading both lists at an index determines the zip. -/
theorem zip_getElem?_intro {α β : Type} :
    ∀ (l : List α) (l' : List β) (k : Nat) (x : α) (y : β),
      l[k]? = some x → l'[k]? = some y → (l.zip l')[k]? = some (x, y)
  | [], _, _, _, _, hx, _ => by simp at hx
  | _ :: _, [], _, _, _, _, hy => by simp at hy
  | a :: t, b :: t', 0, x, y, hx, hy => by
    simp only [List.getElem?_cons_zero, Option.some.injEq] at hx hy
    simp [List.zip_cons_cons, hx, hy]
  | a :: t, b :: t', k + 1, x, y, hx, hy => by
    simp only [List.getElem?_cons_succ] at hx hy
    simp only [List.zip_cons_cons, List.getElem?_cons_succ]
    exact zip_getElem?_intro t t' k x y hx hy

/-- The interleaved pass produces one outcome per processed pair, and
the outcome is `Correct` exactly at the exact-match pairs. -/
theorem computeGo_correct_iff (ag : List (Char × Char)) :
    ∀ (rest : List (Char × Char)) (i : Nat) (used : List Bool) (k : Nat),
      ((computeGo ag rest i used).1[k]? = some Correctness.Correct ↔
        ∃ p : Char × Char, rest[k]? = some p ∧ p.1 = p.2)
  | [], _, _, k => by simp [computeGo]
  | (a, g) :: rest, i, used, 0 => by
    simp only [computeGo]
    by_cases hexact : a = g
    · rw [if_pos hexact]
      show (Correctness.Correct ::
          (computeGo ag rest (i + 1) (used.set i true)).1)[0]? =
          some Correctness.Correct ↔ _
      simp [hexact]
    · rw [if_neg hexact]
      cases hscan : innerScan g (ag.zip used) 0 with
      | some j =>
        show (Correctness.Misplaced ::
            (computeGo ag rest (i + 1) (used.set j true)).1)[0]? =
            some Correctness.Correct ↔ _
        simp [hexact]
      | none =>
        show (Correctness.Wrong ::
            (computeGo ag rest (i + 1) used).1)[0]? =
            some Correctness.Correct ↔ _
        simp [hexact]
  | (a, g) :: rest, i, used, k + 1 => by
    simp only [computeGo]
    by_cases hexact : a = g
    · rw [if_pos hexact]
      show (Correctness.Correct ::
          (computeGo ag rest (i + 1) (used.set i true)).1)[k + 1]? =
          some Correctness.Correct ↔ _
      simp only [List.getElem?_cons_succ]
      exact computeGo_correct_iff ag rest (i + 1) (used.set i true) k
    · rw [if_neg hexact]
      cases hscan : innerScan g (ag.zip used) 0 with
      | some j =>
        show (Correctness.Misplaced ::
            (computeGo ag rest (i + 1) (used.set j true)).1)[k + 1]? =
            some Correctness.Correct ↔ _
        simp only [List.getElem?_cons_succ]
        exact computeGo_correct_iff ag rest (i + 1) (used.set j true) k
      | none =>
        show (Correctness.Wrong ::
            (computeGo ag rest (i + 1) used).1)[k + 1]? =
            some Correctness.Correct ↔ _
        simp only [List.getElem?_cons_succ]
        exact computeGo_correct_iff ag rest (i + 1) used k

/-- C3: For every pair of 5-letter words A and G and every position i in
0..5, the mask returned by `Correctness::compute(A, G)` has outcome
Correct at position i if and only if A[i] == G[i]. -/
theorem compute_correct_iff_exact (answer guess : List Char)
    (ha : answer.length = 5) (hg : guess.length = 5) (i : Nat) (hi : i < 5) :
    ((compute answer guess)[i]? = some Correctness.Correct ↔
      answer[i]? = guess[i]?) := by
  show ((computeGo (answer.zip guess) (answer.zip guess) 0
      (List.replicate (answer.zip guess).length false)).1[i]? =
      some Correctness.Correct ↔ _)
  rw [computeGo_correct_iff]
  constructor
  · rintro ⟨p, hp, heq⟩
    obtain ⟨h1, h2⟩ := zip_getElem?_eq _ _ _ _ hp
    rw [h1, h2, heq]
  · intro h
    have hi1 : i < answer.length := by omega
    have hx : ∃ x, answer[i]? = some x := by
      rw [List.getElem?_eq_getElem hi1]; exact ⟨_, rfl⟩
    obtain ⟨x, hx⟩ := hx
    have hy : guess[i]? = some x := by rw [← h]; exact hx
    exact ⟨(x, x), zip_getElem?_intro _ _ _ _ _ hx hy, rfl⟩

/-- Witness for C3 at A="abcde", G="axcyz", i=2 (a match) where the
outcome is Correct, applying the theorem directly. -/
theorem compute_correct_iff_exact_witness :
    (['a', 'b', 'c', 'd', 'e'] : List Char).length = 5 ∧
    (['a', 'x', 'c', 'y', 'z'] : List Char).length = 5 ∧ 2 < 5 ∧
    ((compute ['a', 'b', 'c', 'd', 'e'] ['a', 'x', 'c', 'y', 'z'])[2]? =
        some Correctness.Correct ↔
      (['a', 'b', 'c', 'd', 'e'] : List Char)[2]? =
        (['a', 'x', 'c', 'y', 'z'] : List Char)[2]?) :=
  ⟨rfl, rfl, by decide,
    compute_correct_iff_exact ['a', 'b', 'c', 'd', 'e']
      ['a', 'x', 'c', 'y', 'z'] rfl rfl 2 (by decide)⟩

/-- C9: `Correctness::compute` reproduces the spec's duplicate-letter
worked examples: compute("aabbb", "caacc") = [Wrong, Correct, Misplaced,
Wrong, Wrong] (left-to-right priority) and compute("azzaz", "aaabb") =
[Correct, Misplaced, Wrong, Wrong, Wrong] (scarcity). -/
theorem compute_worked_examples :
    compute ['a', 'a', 'b', 'b', 'b'] ['c', 'a', 'a', 'c', 'c'] =
      [Correctness.Wrong, Correctness.Correct, Correctness.Misplaced,
        Correctness.Wrong, Correctness.Wrong] ∧
    compute ['a', 'z', 'z', 'a', 'z'] ['a', 'a', 'a', 'b', 'b'] =
      [Correctness.Correct, Correctness.Misplaced, Correctness.Wrong,
        Correctness.Wrong, Correctness.Wrong] :=
  ⟨by decide, by decide⟩

/-! ### The letter-supply invariant -/

/-- What a successful inner scan guarantees about the found index. -/
theorem innerScan_some (gc : Char) :
    ∀ (l : List ((Char × Char) × Bool)) (j0 j : Nat),
      innerScan gc l j0 = some j →
      ∃ k, ∃ x : (Char × Char) × Bool, l[k]? = some x ∧ j = j0 + k ∧
        gc = x.1.1 ∧ x.1.1 ≠ x.1.2 ∧ x.2 = false
  | [], j0, j, h => by simp [innerScan] at h
  | ((a, g), u) :: rest, j0, j, h => by
    rw [innerScan] at h
    by_cases hc : gc = a ∧ a ≠ g ∧ u = false
    · rw [if_pos hc] at h
      cases h
      exact ⟨0, ((a, g), u), by simp, by simp, hc.1, hc.2.1, hc.2.2⟩
    · rw [if_neg hc] at h
      obtain ⟨k, x, hx, hj, h1, h2, h3⟩ := innerScan_some gc rest (j0 + 1) j h
      exact ⟨k + 1, x, by simpa using hx, by omega, h1, h2, h3⟩

/-- Consuming an unconsumed position with letter `p.1` lowers the
unconsumed supply of that letter by one and changes nothing else. -/
theorem unusedCount_set (L : Char) :
    ∀ (ag : List (Char × Char)) (used : List Bool) (j : Nat) (p : Char × Char),
      ag[j]? = some p → used[j]? = some false →
      unusedCount ag used L =
        unusedCount ag (used.set j true) L + (if p.1 = L then 1 else 0)
  | [], _, j, p, hj, _ => by simp at hj
  | _ :: _, [], j, p, _, hu => by simp at hu
  | q :: agt, b :: ut, 0, p, hj, hu => by
    simp only [List.getElem?_cons_zero, Option.some.injEq] at hj hu
    rw [hj, hu]
    simp only [unusedCount, List.set_cons_zero, List.zip_cons_cons,
      List.countP_cons]
    by_cases hL : p.1 = L
    · rw [if_pos (by simp [hL]), if_neg (by simp), if_pos hL]
    · rw [if_neg (by simp [hL]), if_neg (by simp), if_neg hL]
  | q :: agt, b :: ut, j + 1, p, hj, hu => by
    simp only [List.getElem?_cons_succ] at hj hu
    have ih := unusedCount_set L agt ut j p hj hu
    simp only [unusedCount, List.set_cons_succ, List.zip_cons_cons,
      List.countP_cons] at ih ⊢
    omega

/-- Supply invariant for the two-pass algorithm's pass 2: the credits
handed out over the remaining positions are covered by the exact
matches still to be emitted plus the unconsumed supply. -/
theorem specGo_supply (ag : List (Char × Char)) (L : Char) :
    ∀ (rest : List (Char × Char)) (used : List Bool),
      used.length = ag.length →
      creditsAg rest (specGo ag rest used).1 L ≤
        exactCount rest L + unusedCount ag used L
  | [], used, _ => by simp [creditsAg, specGo, exactCount]
  | (a, g) :: rest, used, hlen => by
    simp only [specGo]
    by_cases hexact : a = g
    · rw [if_pos hexact]
      subst hexact
      have ih := specGo_supply ag L rest used hlen
      show creditsAg ((a, a) :: rest)
          (Correctness.Correct :: (specGo ag rest used).1) L ≤ _
      simp only [creditsAg, exactCount, List.zip_cons_cons,
        List.countP_cons] at ih ⊢
      by_cases hL : a = L
      · rw [if_pos (decide_eq_true ⟨hL, by decide⟩),
          if_pos (decide_eq_true ⟨trivial, hL⟩)]
        omega
      · rw [if_neg (fun hcon => hL (of_decide_eq_true hcon).1),
          if_neg (fun hcon => hL (of_decide_eq_true hcon).2)]
        omega
    · rw [if_neg hexact]
      cases hscan : innerScan g (ag.zip used) 0 with
      | some j =>
        obtain ⟨k, x, hx, hj, hgc, hne, hfalse⟩ :=
          innerScan_some g (ag.zip used) 0 j hscan
        obtain ⟨hagk, husedk⟩ := zip_getElem?_eq _ _ _ _ hx
        rw [hfalse] at husedk
        have hjk : j = k := by omega
        subst hjk
        have ih := specGo_supply ag L rest (used.set j true)
          (by simp [hlen])
        have hstep := unusedCount_set L ag used j x.1 hagk husedk
        rw [hgc.symm] at hstep
        show creditsAg ((a, g) :: rest)
            (Correctness.Misplaced :: (specGo ag rest (used.set j true)).1) L ≤ _
        simp only [creditsAg, exactCount, List.zip_cons_cons,
          List.countP_cons] at ih ⊢
        rw [hstep]
        by_cases hL : g = L
        · rw [if_pos (decide_eq_true ⟨hL, by decide⟩),
            if_neg (fun hcon => hexact (of_decide_eq_true hcon).1),
            if_pos hL]
          omega
        · rw [if_neg (fun hcon => hL (of_decide_eq_true hcon).1),
            if_neg (fun hcon => hexact (of_decide_eq_true hcon).1),
            if_neg hL]
          omega
      | none =>
        have ih := specGo_supply ag L rest used hlen
        show creditsAg ((a, g) :: rest)
            (Correctness.Wrong :: (specGo ag rest used).1) L ≤ _
        simp only [creditsAg, exactCount, List.zip_cons_cons,
          List.countP_cons] at ih ⊢
        rw [if_neg (fun hcon => (of_decide_eq_true hcon).2 rfl),
          if_neg (fun hcon => hexact (of_decide_eq_true hcon).1)]
        omega

/-- The credit count over the guess equals the credit count over the
zipped pairs. -/
theorem creditCount_eq_creditsAg (L : Char) :
    ∀ (answer guess : List Char) (mask : List Correctness),
      answer.length = guess.length →
      creditCount guess mask L = creditsAg (answer.zip guess) mask L
  | [], [], mask, _ => by simp [creditCount, creditsAg]
  | [], _ :: _, _, h => by simp at h
  | _ :: _, [], _, h => by simp at h
  | a :: at_, g :: gt, [], _ => by simp [creditCount, creditsAg]
  | a :: at_, g :: gt, m :: mt, h => by
    have ih := creditCount_eq_creditsAg L at_ gt mt (by simpa using h)
    simp only [creditCount, creditsAg, List.zip_cons_cons,
      List.countP_cons] at ih ⊢
    omega

/-- Exact matches plus the initially unconsumed positions together make
up every answer position with the given letter. -/
theorem exact_add_unused (L : Char) :
    ∀ ag : List (Char × Char),
      exactCount ag L +
          unusedCount ag (ag.map fun p => decide (p.1 = p.2)) L =
        ag.countP fun p => decide (p.1 = L)
  | [] => by simp [exactCount, unusedCount]
  | p :: ag => by
    have ih := exact_add_unused L ag
    simp only [exactCount, unusedCount, List.map_cons, List.zip_cons_cons,
      List.countP_cons] at ih ⊢
    by_cases h1 : p.1 = p.2
    · by_cases h2 : p.1 = L
      · rw [if_pos (decide_eq_true ⟨h1, h2⟩),
          if_neg (fun hcon =>
            absurd (decide_eq_true h1) (by rw [(of_decide_eq_true hcon).2]; decide)),
          if_pos (decide_eq_true h2)]
        omega
      · rw [if_neg (fun hcon => h2 (of_decide_eq_true hcon).2),
          if_neg (fun hcon => h2 (of_decide_eq_true hcon).1),
          if_neg (fun hcon => h2 (of_decide_eq_true hcon))]
        omega
    · by_cases h2 : p.1 = L
      · rw [if_neg (fun hcon => h1 (of_decide_eq_true hcon).1),
          if_pos (decide_eq_true ⟨h2, decide_eq_false h1⟩),
          if_pos (decide_eq_true h2)]
        omega
      · rw [if_neg (fun hcon => h2 (of_decide_eq_true hcon).2),
          if_neg (fun hcon => h2 (of_decide_eq_true hcon).1),
          if_neg (fun hcon => h2 (of_decide_eq_true hcon))]
        omega

/-- Counting a letter among the answer components of the zipped pairs
counts its occurrences in the answer. -/
theorem countP_zip_fst (L : Char) :
    ∀ (answer guess : List Char), answer.length = guess.length →
      ((answer.zip guess).countP fun p => decide (p.1 = L)) =
        answer.count L
  | [], [], _ => by simp
  | [], _ :: _, h => by simp at h
  | _ :: _, [], h => by simp at h
  | a :: at_, g :: gt, h => by
    have ih := countP_zip_fst L at_ gt (by simpa using h)
    rw [List.count_cons]
    simp only [List.zip_cons_cons, List.countP_cons, ih]
    by_cases hL : a = L <;> simp [hL]

/-- C2: Letter-supply invariant: for every pair of 5-letter words
(answer, guess) and every letter L, the number of positions in the mask
returned by `Correctness::compute` that are Correct or Misplaced and
whose guess letter is L never exceeds the number of occurrences of L in
the answer. -/
theorem compute_letter_supply (answer guess : List Char)
    (ha : answer.length = 5) (hg : guess.length = 5) (L : Char) :
    creditCount guess (compute answer guess) L ≤ answer.count L := by
  have hlen : answer.length = guess.length := by omega
  rw [creditCount_eq_creditsAg L answer guess (compute answer guess) hlen,
    compute_eq_specCompute answer guess]
  have hsup := specGo_supply (answer.zip guess) L (answer.zip guess)
    ((answer.zip guess).map fun p => decide (p.1 = p.2)) (by simp)
  have hspec : creditsAg (answer.zip guess) (specCompute answer guess) L ≤
      exactCount (answer.zip guess) L +
        unusedCount (answer.zip guess)
          ((answer.zip guess).map fun p => decide (p.1 = p.2)) L := hsup
  have hfin := exact_add_unused L (answer.zip guess)
  have hcnt := countP_zip_fst L answer guess hlen
  omega

/-- Witness for C2 at A="aabbb", G="caacc", L='a': two credits against
two occurrences. -/
theorem compute_letter_supply_witness :
    (['a', 'a', 'b', 'b', 'b'] : List Char).length = 5 ∧
    (['c', 'a', 'a', 'c', 'c'] : List Char).length = 5 ∧
    creditCount ['c', 'a', 'a', 'c', 'c']
        (compute ['a', 'a', 'b', 'b', 'b'] ['c', 'a', 'a', 'c', 'c']) 'a' ≤
      (['a', 'a', 'b', 'b', 'b'] : List Char).count 'a' :=
  ⟨rfl, rfl,
    compute_letter_supply ['a', 'a', 'b', 'b', 'b'] ['c', 'a', 'a', 'c', 'c']
      rfl rfl 'a'⟩

/-! ### The game loop -/

theorem stateAt_snd_length {σ : Type} (answer : List Char)
    (guesser : σ → History → List Char × σ) (init : σ) :
    ∀ n, ((stateAt answer guesser init n).2).length = n
  | 0 => rfl
  | n + 1 => by
    show ((stateAt answer guesser init n).2 ++ [_]).length = n + 1
    rw [List.length_append, stateAt_snd_length answer guesser init n]
    rfl

/-- The history after `n` non-winning rounds holds, at each index
`j < n`, exactly the round-`j+1` guess paired with its mask. -/
theorem stateAt_snd_getElem {σ : Type} (answer : List Char)
    (guesser : σ → History → List Char × σ) (init : σ) :
    ∀ (n j : Nat), j < n →
      ((stateAt answer guesser init n).2)[j]? =
        some ⟨guessAt answer guesser init j,
          compute answer (guessAt answer guesser init j)⟩
  | 0, j, h => absurd h (by omega)
  | n + 1, j, h => by
    have hlen := stateAt_snd_length answer guesser init n
    show ((stateAt answer guesser init n).2 ++
        [⟨guessAt answer guesser init n,
          compute answer (guessAt answer guesser init n)⟩])[j]? = _
    rcases Nat.lt_or_ge j n with hj | hj
    · rw [List.getElem?_append_left (by rw [hlen]; exact hj)]
      exact stateAt_snd_getElem answer guesser init n j hj
    · have hjn : j = n := by omega
      subst hjn
      rw [List.getElem?_append_right (le_of_eq hlen), hlen]
      simp

/-- As long as every round so far produced a non-winning, in-dictionary,
five-letter guess, running `play` is the same as running the remaining
rounds from the accumulated state. -/
theorem play_reach {σ : Type} (dict : List Char → Bool) (answer : List Char)
    (guesser : σ → History → List Char × σ) (init : σ)
    (ha : answer.length = 5) :
    ∀ m, m ≤ MAX_GUESSES →
      (∀ j, j < m → guessAt answer guesser init j ≠ answer ∧
        dict (guessAt answer guesser init j) = true ∧
        (guessAt answer guesser init j).length = 5) →
      playH dict answer guesser init =
        playGo dict answer guesser (MAX_GUESSES - m) (1 + m)
          (stateAt answer guesser init m).1 (stateAt answer guesser init m).2
  | 0, _, _ => rfl
  | m + 1, hm, hj => by
    have ih := play_reach dict answer guesser init ha m (by omega)
      (fun j hjm => hj j (by omega))
    obtain ⟨hne, hdict, hlen5⟩ := hj m (by omega)
    have hne' : (guesser (stateAt answer guesser init m).1
        (stateAt answer guesser init m).2).1 ≠ answer := hne
    have hdict' : dict (guesser (stateAt answer guesser init m).1
        (stateAt answer guesser init m).2).1 = true := hdict
    have hlen5' : ((guesser (stateAt answer guesser init m).1
        (stateAt answer guesser init m).2).1).length = 5 := hlen5
    have h32 : MAX_GUESSES = 32 := rfl
    have hfuel : MAX_GUESSES - m = (MAX_GUESSES - (m + 1)) + 1 := by omega
    rw [ih, hfuel]
    simp only [playGo]
    rw [if_neg hne', if_pos hdict']
    have hcc : computeChecked answer (guesser (stateAt answer guesser init m).1
        (stateAt answer guesser init m).2).1 =
        Except.ok (compute answer (guesser (stateAt answer guesser init m).1
          (stateAt answer guesser init m).2).1) := by
      unfold computeChecked
      rw [if_pos ha, if_pos hlen5']
    rw [hcc]
    rfl

/-- C5: For every k with 1 ≤ k ≤ MAX_ROUNDS, if the strategy returns
the answer exactly on round k and on every earlier round returns a
non-answer word belonging to the Valid-Word Set, then play returns
Some(k), and the History passed to the strategy on round k contains
exactly k−1 Guess Records (one per prior round, in chronological
order). -/
theorem play_solved_at_round {σ : Type} (dict : List Char → Bool)
    (answer : List Char) (guesser : σ → History → List Char × σ) (init : σ)
    (k : Nat) (hk1 : 1 ≤ k) (hk : k ≤ MAX_GUESSES) (ha : answer.length = 5)
    (hd5 : ∀ w, dict w = true → w.length = 5)
    (hbefore : ∀ j, j < k - 1 → guessAt answer guesser init j ≠ answer ∧
      dict (guessAt answer guesser init j) = true)
    (hwin : guessAt answer guesser init (k - 1) = answer) :
    playH dict answer guesser init =
      Except.ok (some k, (stateAt answer guesser init (k - 1)).2) ∧
    (stateAt answer guesser init (k - 1)).2.length = k - 1 ∧
    ∀ j, j < k - 1 →
      ((stateAt answer guesser init (k - 1)).2)[j]? =
        some ⟨guessAt answer guesser init j,
          compute answer (guessAt answer guesser init j)⟩ := by
  have h32 : MAX_GUESSES = 32 := rfl
  have hreach := play_reach dict answer guesser init ha (k - 1) (by omega)
    (fun j hj => ⟨(hbefore j hj).1, (hbefore j hj).2,
      hd5 _ (hbefore j hj).2⟩)
  have hfuel : MAX_GUESSES - (k - 1) = (MAX_GUESSES - k) + 1 := by omega
  refine ⟨?_, stateAt_snd_length answer guesser init (k - 1),
    fun j hj => stateAt_snd_getElem answer guesser init (k - 1) j hj⟩
  rw [hreach, hfuel]
  simp only [playGo]
  rw [if_pos (show (guesser (stateAt answer guesser init (k - 1)).1
      (stateAt answer guesser init (k - 1)).2).1 = answer from hwin)]
  have hone : 1 + (k - 1) = k := by omega
  rw [hone]

/-- C4 (amended): For every answer in the Valid-Word Set, if the
strategy never returns a guess equal to the answer and all its guesses
are in the Valid-Word Set (whose words are all five letters), then play
returns "not solved" (None) after exactly MAX_ROUNDS rounds, and the
History at termination contains exactly MAX_ROUNDS Guess Records —
not MAX_ROUNDS - 1: the final round's guess does not win, so it too is
scored and recorded. -/
theorem play_exhausted_records_all {σ : Type} (dict : List Char → Bool)
    (answer : List Char) (guesser : σ → History → List Char × σ) (init : σ)
    (hmem : dict answer = true)
    (ha : answer.length = 5)
    (hd5 : ∀ w, dict w = true → w.length = 5)
    (hno : ∀ (st : σ) (h : History), (guesser st h).1 ≠ answer)
    (hdict : ∀ (st : σ) (h : History), dict (guesser st h).1 = true) :
    playH dict answer guesser init =
      Except.ok (none, (stateAt answer guesser init MAX_GUESSES).2) ∧
    (stateAt answer guesser init MAX_GUESSES).2.length = MAX_GUESSES := by
  have hreach := play_reach dict answer guesser init ha MAX_GUESSES
    (le_refl _)
    (fun j _ => ⟨hno _ _, hdict _ _, hd5 _ (hdict _ _)⟩)
  rw [hreach]
  exact ⟨rfl, stateAt_snd_length answer guesser init MAX_GUESSES⟩

/-- C6: On any round where the strategy's guess equals the answer, the
loop returns that round number immediately with the history unchanged:
the dictionary is arbitrary and never consulted, the Scoring Engine is
not invoked (the answer need not even have five letters), and no record
is appended. -/
theorem play_win_short_circuit {σ : Type} (dict : List Char → Bool)
    (answer : List Char) (guesser : σ → History → List Char × σ)
    (rounds i : Nat) (st : σ) (history : History)
    (hwin : (guesser st history).1 = answer) :
    playGo dict answer guesser (rounds + 1) i st history =
      Except.ok (some i, history) := by
  simp only [playGo]
  rw [if_pos hwin]

/-- No abort happens in any round when the answer has five letters and
every non-winning guess is a five-letter dictionary word. -/
theorem playGo_no_abort {σ : Type} (dict : List Char → Bool)
    (answer : List Char) (guesser : σ → History → List Char × σ)
    (ha : answer.length = 5)
    (hvalid : ∀ (st : σ) (h : History), (guesser st h).1 ≠ answer →
      dict (guesser st h).1 = true ∧ ((guesser st h).1).length = 5) :
    ∀ (rounds i : Nat) (st : σ) (h0 : History),
      ∃ r, playGo dict answer guesser rounds i st h0 = Except.ok r
  | 0, _, _, h0 => ⟨(none, h0), rfl⟩
  | rounds + 1, i, st, h0 => by
    by_cases hwin : (guesser st h0).1 = answer
    · exact ⟨(some i, h0), by simp only [playGo]; rw [if_pos hwin]⟩
    · obtain ⟨hdict, hlen⟩ := hvalid st h0 hwin
      obtain ⟨r, hr⟩ := playGo_no_abort dict answer guesser ha hvalid rounds
        (i + 1) (guesser st h0).2
        (h0 ++ [⟨(guesser st h0).1, compute answer (guesser st h0).1⟩])
      refine ⟨r, ?_⟩
      simp only [playGo]
      rw [if_neg hwin, if_pos hdict]
      have hcc : computeChecked answer (guesser st h0).1 =
          Except.ok (compute answer (guesser st h0).1) := by
        unfold computeChecked
        rw [if_pos ha, if_pos hlen]
      rw [hcc]
      exact hr

/-- C7: The program has exactly two fatal abort conditions — a length
assertion in the Scoring Engine and the dictionary-membership assertion
in play, the only inhabitants of `PlayError` — and when neither
applies (five-letter answer, every non-winning guess a five-letter
dictionary word) a game runs to completion, ending cleanly in
`Except.ok` (Solved or Exhausted) with no abort. -/
theorem play_clean_completion {σ : Type} (dict : List Char → Bool)
    (answer : List Char) (guesser : σ → History → List Char × σ) (init : σ)
    (ha : answer.length = 5)
    (hvalid : ∀ (st : σ) (h : History), (guesser st h).1 ≠ answer →
      dict (guesser st h).1 = true ∧ ((guesser st h).1).length = 5) :
    ∃ r, play dict answer guesser init = Except.ok r := by
  obtain ⟨r, hr⟩ := playGo_no_abort dict answer guesser ha hvalid
    MAX_GUESSES 1 init []
  refine ⟨r.1, ?_⟩
  show (playGo dict answer guesser MAX_GUESSES 1 init []).map Prod.fst =
    Except.ok r.1
  rw [hr]
  rfl

/-- If the fuel runs out with an Exhausted result, one record was
appended in every round. -/
theorem playGo_none_hist {σ : Type} (dict : List Char → Bool)
    (answer : List Char) (guesser : σ → History → List Char × σ) :
    ∀ (rounds i : Nat) (st : σ) (h0 h : History),
      playGo dict answer guesser rounds i st h0 = Except.ok (none, h) →
      h.length = h0.length + rounds
  | 0, i, st, h0, h, heq => by
    simp only [playGo, Except.ok.injEq, Prod.mk.injEq] at heq
    rw [← heq.2]
    rfl
  | rounds + 1, i, st, h0, h, heq => by
    simp only [playGo] at heq
    by_cases hwin : (guesser st h0).1 = answer
    · rw [if_pos hwin] at heq
      simp at heq
    · rw [if_neg hwin] at heq
      by_cases hdict : dict (guesser st h0).1 = true
      · rw [if_pos hdict] at heq
        cases hcc : computeChecked answer (guesser st h0).1 with
        | ok mask =>
          rw [hcc] at heq
          have ih := playGo_none_hist dict answer guesser rounds (i + 1)
            (guesser st h0).2 (h0 ++ [⟨(guesser st h0).1, mask⟩]) h heq
          simp only [List.length_append, List.length_cons,
            List.length_nil] at ih
          omega
        | error e =>
          rw [hcc] at heq
          exact absurd heq (by simp)
      · rw [if_neg hdict] at heq
        exact absurd heq (by simp)

/-- C10: Whenever play returns None (the game is exhausted), the History
at termination contains exactly MAX_ROUNDS = 32 Guess Records: every
non-winning guess, including the one made on the final round, is scored
and appended before the loop ends. -/
theorem exhausted_history_full {σ : Type} (dict : List Char → Bool)
    (answer : List Char) (guesser : σ → History → List Char × σ)
    (init : σ) (h : History)
    (hret : playH dict answer guesser init = Except.ok (none, h)) :
    h.length = MAX_GUESSES := by
  have hlen := playGo_none_hist dict answer guesser MAX_GUESSES 1 init [] h hret
  simpa using hlen

/-- If the game is solved, the round number is within the bounds set by
the loop counter, and one record was appended per completed round. -/
theorem playGo_some_bounds {σ : Type} (dict : List Char → Bool)
    (answer : List Char) (guesser : σ → History → List Char × σ) :
    ∀ (rounds i : Nat) (st : σ) (h0 : History) (n : Nat) (h : History),
      playGo dict answer guesser rounds i st h0 = Except.ok (some n, h) →
      i ≤ n ∧ n < i + rounds ∧ h.length = h0.length + (n - i)
  | 0, i, st, h0, n, h, heq => by
    simp only [playGo, Except.ok.injEq, Prod.mk.injEq] at heq
    exact absurd heq.1 (by simp)
  | rounds + 1, i, st, h0, n, h, heq => by
    simp only [playGo] at heq
    by_cases hwin : (guesser st h0).1 = answer
    · rw [if_pos hwin] at heq
      simp only [Except.ok.injEq, Prod.mk.injEq, Option.some.injEq] at heq
      obtain ⟨hn, hh⟩ := heq
      subst hn
      rw [← hh]
      refine ⟨le_refl _, by omega, by omega⟩
    · rw [if_neg hwin] at heq
      by_cases hdict : dict (guesser st h0).1 = true
      · rw [if_pos hdict] at heq
        cases hcc : computeChecked answer (guesser st h0).1 with
        | ok mask =>
          rw [hcc] at heq
          have ih := playGo_some_bounds dict answer guesser rounds (i + 1)
            (guesser st h0).2 (h0 ++ [⟨(guesser st h0).1, mask⟩]) n h heq
          simp only [List.length_append, List.length_cons,
            List.length_nil] at ih
          exact ⟨by omega, by omega, by omega⟩
        | error e =>
          rw [hcc] at heq
          exact absurd heq (by simp)
      · rw [if_neg hdict] at heq
        exact absurd heq (by simp)

/-- C8: play terminates for every strategy and every answer: the round
loop executes at most MAX_ROUNDS iterations, where MAX_ROUNDS is the
fixed constant 32, regardless of what words the strategy produces:
a solved round number lies in 1..32 and at most 32 records are ever
accumulated. -/
theorem play_round_bound :
    MAX_GUESSES = 32 ∧
    ∀ (σ : Type) (dict : List Char → Bool) (answer : List Char)
      (guesser : σ → History → List Char × σ) (init : σ)
      (res : Option Nat × History),
      playH dict answer guesser init = Except.ok res →
      res.2.length ≤ MAX_GUESSES ∧
      ∀ n, res.1 = some n → 1 ≤ n ∧ n ≤ MAX_GUESSES := by
  refine ⟨rfl, ?_⟩
  intro σ dict answer guesser init res hres
  have h32 : MAX_GUESSES = 32 := rfl
  obtain ⟨o, h⟩ := res
  cases o with
  | none =>
    have hlen := playGo_none_hist dict answer guesser MAX_GUESSES 1 init [] h hres
    simp only [List.length_nil] at hlen
    constructor
    · show h.length ≤ MAX_GUESSES
      omega
    · intro n hn
      exact absurd hn (by simp)
  | some m =>
    have hbnd := playGo_some_bounds dict answer guesser MAX_GUESSES 1 init []
      m h hres
    simp only [List.length_nil] at hbnd
    obtain ⟨hm1, hm2, hm3⟩ := hbnd
    constructor
    · show h.length ≤ MAX_GUESSES
      omega
    · intro n hn
      have hn' : some m = some n := hn
      injection hn' with hmn
      subst hmn
      exact ⟨by omega, by omega⟩

/-- Witness for C5 at k = 2 with the round-2 strategy. -/
theorem play_solved_at_round_witness :
    (∀ j, j < 2 - 1 → guessAt cAnswer cGuesserRound2 () j ≠ cAnswer ∧
      cDict (guessAt cAnswer cGuesserRound2 () j) = true) ∧
    guessAt cAnswer cGuesserRound2 () (2 - 1) = cAnswer ∧
    (playH cDict cAnswer cGuesserRound2 () =
        Except.ok (some 2, (stateAt cAnswer cGuesserRound2 () (2 - 1)).2) ∧
      (stateAt cAnswer cGuesserRound2 () (2 - 1)).2.length = 2 - 1 ∧
      ∀ j, j < 2 - 1 →
        ((stateAt cAnswer cGuesserRound2 () (2 - 1)).2)[j]? =
          some ⟨guessAt cAnswer cGuesserRound2 () j,
            compute cAnswer (guessAt cAnswer cGuesserRound2 () j)⟩) :=
  ⟨by decide, by decide,
    play_solved_at_round cDict cAnswer cGuesserRound2 () 2 (by decide)
      (by decide) rfl
      (fun w hw => by
        rw [of_decide_eq_true (show decide (w = cOther) = true from hw)]
        rfl)
      (by decide) (by decide)⟩

/-- Counterexample for C4 as stated: a concrete game whose answer
belongs to the dictionary, and whose strategy never matches and guesses
only dictionary words, is exhausted with a final history of 32 records,
not MAX_ROUNDS - 1 = 31. -/
theorem play_exhausted_counterexample :
    cDictBoth cAnswer = true ∧
    cDictBoth cOther = true ∧
    Except.map (fun r => (r.1, r.2.length))
        (playH cDictBoth cAnswer cGuesserConst ()) =
      Except.ok ((none : Option Nat), 32) ∧
    (32 : Nat) ≠ MAX_GUESSES - 1 :=
  ⟨rfl, rfl, rfl, by decide⟩

/-- Witness for the amended C4 at the concrete never-matching game
whose answer is in the dictionary. -/
theorem play_exhausted_records_all_witness :
    cDictBoth cAnswer = true ∧ cAnswer.length = 5 ∧
    (playH cDictBoth cAnswer cGuesserConst () =
        Except.ok (none, (stateAt cAnswer cGuesserConst () MAX_GUESSES).2) ∧
      (stateAt cAnswer cGuesserConst () MAX_GUESSES).2.length = MAX_GUESSES) :=
  ⟨rfl, rfl,
    play_exhausted_records_all cDictBoth cAnswer cGuesserConst () rfl rfl
      (fun w hw => by
        rcases of_decide_eq_true
            (show decide (w = cOther ∨ w = cAnswer) = true from hw) with
            h | h <;> simp [h, cOther, cAnswer])
      (fun _ _ => (by decide : cOther ≠ cAnswer)) (fun _ _ => rfl)⟩

/-- Witness for C6: a two-letter winning guess, absent from the (empty)
dictionary, still short-circuits to a win in round 4. -/
theorem play_win_short_circuit_witness :
    ((fun (_ : Unit) (_ : History) => ((['h', 'i'] : List Char), ())) ()
      ([] : History)).1 = ['h', 'i'] ∧
    playGo (fun _ => false) ['h', 'i']
        (fun (_ : Unit) (_ : History) => (['h', 'i'], ())) 31 4 () [] =
      Except.ok (some 4, ([] : History)) :=
  ⟨rfl, play_win_short_circuit (fun _ => false) ['h', 'i']
    (fun _ _ => (['h', 'i'], ())) 30 4 () [] rfl⟩

/-- Witness for C7 at the concrete never-matching game. -/
theorem play_clean_completion_witness :
    cAnswer.length = 5 ∧
    ∃ r, play cDict cAnswer cGuesserConst () = Except.ok r :=
  ⟨rfl, play_clean_completion cDict cAnswer cGuesserConst () rfl
    (fun _ _ _ => ⟨rfl, rfl⟩)⟩

/-- Witness for C10 at the concrete exhausted game. -/
theorem exhausted_history_full_witness :
    playH cDict cAnswer cGuesserConst () = Except.ok (none, finalHistory) ∧
    finalHistory.length = MAX_GUESSES :=
  ⟨rfl, exhausted_history_full cDict cAnswer cGuesserConst () finalHistory rfl⟩

/-- Witness for C8 at the instantly-winning concrete game. -/
theorem play_round_bound_witness :
    playH cDict cAnswer cGuesserWin () = Except.ok (some 1, ([] : History)) ∧
    ((some 1, ([] : History)).2.length ≤ MAX_GUESSES ∧
      ∀ n, (some 1, ([] : History)).1 = some n → 1 ≤ n ∧ n ≤ MAX_GUESSES) :=
  ⟨rfl, play_round_bound.2 Unit cDict cAnswer cGuesserWin () (some 1, []) rfl⟩
